import Mathlib

/-!
# gokedex: the response cache and the command handlers that use it

The repository's `repl.go` holds the REPL glue (`commandMap`, `commandMapb`,
`commandExplore`, `commandCatch`, ...).  The package `internal/pokecache`
that those handlers call is not part of the sources at hand, so the cache is
modelled from the specification; the handlers are embedded from `repl.go`.

Conventions of the embedding:
* time stamps and durations are integers, in one fixed unit;
* byte payloads are lists of bytes;
* input lines are sequences of code points, and `unicode.ToLower` is a parameter;
* a Go `map[string]V` is a finite association list with pairwise distinct keys;
* effects of a handler (cache calls, HTTP requests, printed lines) are recorded
  in an event log, and the mutable `Config`, the cache and the global
  `pokemonRegistry` are passed explicitly.
-/

namespace Gokedex

/-- A raw byte payload (`[]byte`). -/
abbrev Bytes := List (Fin 256)

/-! ## Go maps with string keys -/

/-- A Go `map[string]V`: finitely many bindings, keys pairwise distinct. -/
structure GoMap (α : Type) where
  items : List (String × α)
  keysUnique : (items.map Prod.fst).Nodup

namespace GoMap

variable {α : Type}

/-- The result of `make(map[string]V)`. -/
def empty : GoMap α := ⟨[], List.nodup_nil⟩

/-- The comma-ok read `v, ok := m[k]`. -/
def get? (m : GoMap α) (k : String) : Option α := m.items.lookup k

/-- Number of bindings, `len(m)`. -/
def size (m : GoMap α) : Nat := m.items.length

/-- The statement `delete(m, k)`. -/
def delete (m : GoMap α) (k : String) : GoMap α :=
  ⟨m.items.filter (fun p => p.1 != k),
    List.Nodup.sublist ((List.filter_sublist m.items).map Prod.fst) m.keysUnique⟩

/-- The assignment `m[k] = v`: inserts the binding or overwrites the old one. -/
def set (m : GoMap α) (k : String) (v : α) : GoMap α :=
  ⟨(k, v) :: m.items.filter (fun p => p.1 != k), by
    rw [List.map_cons, List.nodup_cons]
    refine ⟨?_, List.Nodup.sublist ((List.filter_sublist m.items).map Prod.fst) m.keysUnique⟩
    simp [List.mem_map, List.mem_filter]⟩

end GoMap

/-! ## The timed cache (package `pokecache`) -/

/-- Modelled from the spec: `CacheEntry` of package `pokecache` (not among the
sources): the payload and the time stamp recorded at insertion. -/
structure CacheEntry where
  createdAt : Int
  value : Bytes
deriving DecidableEq, Repr

/-- Modelled from the spec: `TimedCache` (`pokecache.Cache`, not among the
sources): the entry map and the interval that is both sweep period and
maximum age. -/
structure Cache where
  entries : GoMap CacheEntry
  interval : Int

namespace Cache

/-- Modelled from the spec: `Construct(interval)` (`pokecache.NewCache`, not
among the sources): an empty entry store that captures `interval`.  The
reaper it starts is modelled separately by `reap` and `reapLoop`. -/
def NewCache (interval : Int) : Cache := ⟨GoMap.empty, interval⟩

/-- Modelled from the spec: `Add(key, value)` (`pokecache.Cache.Add`, not
among the sources): inserts or overwrites the entry for `key` with `value`
and `createdAt` equal to the time `now` of the call. -/
def Add (c : Cache) (now : Int) (key : String) (value : Bytes) : Cache :=
  { c with entries := c.entries.set key ⟨now, value⟩ }

/-- Modelled from the spec: `Get(key)` (`pokecache.Cache.Get`, not among the
sources): `(value, found)`; no age check is made.  For a missing key the
value component is the empty payload (the spec leaves it open). -/
def Get (c : Cache) (key : String) : Bytes × Bool :=
  match c.entries.get? key with
  | some e => (e.value, true)
  | none => ([], false)

/-- Modelled from the spec: one sweep of the reaper (not among the sources):
for every entry compute `now - entry.createdAt`; if it is `>= interval`,
remove the entry. -/
def reap (c : Cache) (now : Int) : Cache :=
  let swept : GoMap CacheEntry :=
    List.foldl
      (fun m p => if c.interval ≤ now - p.2.createdAt then GoMap.delete m p.1 else m)
      c.entries c.entries.items
  ⟨swept, c.interval⟩

end Cache

/-- One call on the cache handle, or one sweep of the background reaper. -/
inductive Op where
  | add (now : Int) (key : String) (value : Bytes)
  | get (key : String)
  | sweep (now : Int)
deriving DecidableEq, Repr

/-- Effect of one operation on the store.  `Get` only reads. -/
def step (c : Cache) : Op → Cache
  | .add now key value => c.Add now key value
  | .get _ => c
  | .sweep now => c.reap now

/-- The operation is a call of `Get`. -/
def Op.isGet : Op → Bool
  | .get _ => true
  | _ => false

/-- Effect of a sequence of operations, oldest first. -/
def run (c : Cache) (ops : List Op) : Cache := ops.foldl step c

/-- Value of the most recent `Add` for `key` in a sequence of operations. -/
def lastAdded (key : String) : List Op → Option Bytes
  | [] => none
  | .add _ k v :: rest =>
      match lastAdded key rest with
      | some w => some w
      | none => if k = key then some v else none
  | _ :: rest => lastAdded key rest

/-- No reaper sweep occurs in the sequence. -/
def noSweep : List Op → Bool
  | [] => true
  | .sweep _ :: _ => false
  | _ :: rest => noSweep rest

/-! ## The reaper's timetable -/

/-- Modelled from the spec: the periodic timer of the reaper (not among the
sources).  A timer started at `start` fires once every `interval`, first at
`start + interval`; this is the number of ticks at times `<= now`. -/
def ticksDue (start interval now : Int) : Nat := ((now - start) / interval).toNat

/-- Modelled from the spec: the reaper loop (not among the sources): the sweeps
of the ticks number `first + 1, ..., first + count`, each one seeing the time
of its tick as `now`. -/
def sweepTicks (c : Cache) (start : Int) (first : Nat) : Nat → Cache
  | 0 => c
  | count + 1 =>
      sweepTicks (c.reap (start + ((first : Int) + 1) * c.interval)) start (first + 1) count

/-- A cache together with its reaper: the time `start` of construction and
the time `clock` up to which the reaper's sweeps have been carried out. -/
structure Running where
  cache : Cache
  start : Int
  clock : Int

/-- A call `Add(key, value)` made at time `time`. -/
structure TimedAdd where
  time : Int
  key : String
  value : Bytes
deriving DecidableEq, Repr

namespace Running

/-- Modelled from the spec: `Construct(interval)` at time `start`, reaper
started and idle. -/
def construct (interval start : Int) : Running := ⟨Cache.NewCache interval, start, start⟩

/-- Let time pass until `now`: every tick in `(clock, now]` triggers its sweep. -/
def advance (r : Running) (now : Int) : Running :=
  if now ≤ r.clock then r
  else
    ⟨sweepTicks r.cache r.start (ticksDue r.start r.cache.interval r.clock)
        (ticksDue r.start r.cache.interval now - ticksDue r.start r.cache.interval r.clock),
      r.start, now⟩

/-- The call `Add(key, value)` made at time `a.time`; a sweep due at that very
time runs first.  The entry is stamped with the current time. -/
def addAt (r : Running) (a : TimedAdd) : Running :=
  ⟨Cache.Add (r.advance a.time).cache (r.advance a.time).clock a.key a.value,
    (r.advance a.time).start, (r.advance a.time).clock⟩

/-- A sequence of timed `Add` calls, oldest first. -/
def play (r : Running) (adds : List TimedAdd) : Running := adds.foldl addAt r

/-- The call `Get(key)` made at time `now`. -/
def getAt (r : Running) (now : Int) (key : String) : Bytes × Bool :=
  (r.advance now).cache.Get key

end Running

/-- State of key `k` some time after the entry `e` was added for it and not
re-added, in a cache constructed at `start` with `interval`: the entry is
gone, or it is still `e` and was younger than `interval` at the last tick. -/
def Stale (start interval : Int) (k : String) (e : CacheEntry) (r : Running) : Prop :=
  r.start = start ∧ r.cache.interval = interval ∧ start ≤ r.clock ∧
  (r.cache.entries.get? k = none ∨
    (r.cache.entries.get? k = some e ∧
      start + (ticksDue start interval r.clock : Int) * interval < e.createdAt + interval))

/-- State of key `k` while no tick has occurred since the entry `e` was added
at time `e.createdAt`, up to time `upto`. -/
def Fresh (start interval upto : Int) (k : String) (e : CacheEntry) (r : Running) : Prop :=
  r.start = start ∧ r.cache.interval = interval ∧
  r.cache.entries.get? k = some e ∧ e.createdAt ≤ r.clock ∧ r.clock ≤ upto

/-! ## The command handlers of `repl.go` -/

/-- The struct `Result`: one row of a locations page. -/
structure Result where
  Name : String
  Url : String
deriving DecidableEq, Repr

/-- The struct `Locations`: a page of location areas. -/
structure Locations where
  Count : Int
  Next : String
  Previous : String
  Results : List Result
deriving DecidableEq, Repr

/-- The struct `LocationArea`, with the fields the handlers read
(`PokemonEncounters[i].Pokemon.Name`) and its scalar fields; the other nested
fields are decoded but never read and are left out. -/
structure LocationArea where
  GameIndex : Int
  ID : Int
  Name : String
  PokemonEncounters : List String
deriving DecidableEq, Repr

/-- The struct `Pokemon`, with the fields the handlers read (`BaseExperience`,
`Height`, `Weight`, `Stats[i].Stat.Name`, `Stats[i].BaseStat`,
`Types[i].Type.Name`) and its other scalar fields; the remaining nested fields
are decoded but never read and are left out. -/
structure Pokemon where
  BaseExperience : Int
  Height : Int
  ID : Int
  IsDefault : Bool
  Name : String
  Order : Int
  Stats : List (String × Int)
  Types : List String
  Weight : Int
deriving DecidableEq, Repr

/-- The struct `Config`, the state shared by the handlers. -/
structure Config where
  Next : String
  Previous : String
  PokemonInfo : String
  Cache : Cache
  Args : String

/-- What `http.Get` followed by `io.ReadAll(res.Body)` yields on success: the
status code and the bytes read (the error of `ReadAll` is dropped by the
handlers). -/
structure HttpResponse where
  StatusCode : Int
  Body : Bytes
deriving DecidableEq, Repr

/-- The surroundings of a handler call: the clock read by `Add`, the network
behind `http.Get` (an error message or a response for each URL) and
`json.Unmarshal` at each of the three target types. -/
structure Env where
  now : Int
  httpGet : String → Except String HttpResponse
  unmarshalLocations : Bytes → Except String Locations
  unmarshalLocationArea : Bytes → Except String LocationArea
  unmarshalPokemon : Bytes → Except String Pokemon

/-- An observable action of a handler, in program order. -/
inductive Event where
  | cacheGet (key : String)
  | httpGet (url : String)
  | cacheAdd (key : String) (value : Bytes)
  | println (line : String)
deriving DecidableEq, Repr

/-- How a handler call ends: it returns its `error` value (`none` is `nil`),
or the goroutine panics. -/
inductive Status where
  | returned (err : Option String)
  | panicked
deriving DecidableEq, Repr

/-- Result of a handler call: the `Config` it leaves behind, its actions and
the way it ended. -/
structure Outcome where
  config : Config
  events : List Event
  status : Status

/-- The handler `commandMap`. -/
def commandMap (env : Env) (config : Config) : Outcome :=
  match config.Cache.Get config.Next with
  | (val, true) =>
    match env.unmarshalLocations val with
    | .error e => ⟨config, [.cacheGet config.Next], .returned (some e)⟩
    | .ok locations =>
      ⟨{ config with Next := locations.Next, Previous := locations.Previous },
        [.cacheGet config.Next] ++ locations.Results.map (fun r => .println r.Name),
        .returned none⟩
  | (_, false) =>
    match env.httpGet config.Next with
    | .error e => ⟨config, [.cacheGet config.Next, .httpGet config.Next], .returned (some e)⟩
    | .ok res =>
      match env.unmarshalLocations res.Body with
      | .error e =>
        ⟨config, [.cacheGet config.Next, .httpGet config.Next], .returned (some e)⟩
      | .ok locations =>
        if res.StatusCode > 299 then
          ⟨config, [.cacheGet config.Next, .httpGet config.Next], .returned none⟩
        else
          ⟨{ config with
              Cache := config.Cache.Add env.now config.Next res.Body
              Next := locations.Next
              Previous := locations.Previous },
            [.cacheGet config.Next, .httpGet config.Next, .cacheAdd config.Next res.Body]
              ++ locations.Results.map (fun r => .println r.Name),
            .returned none⟩

/-- The handler `commandMapb`. -/
def commandMapb (env : Env) (config : Config) : Outcome :=
  match config.Cache.Get config.Previous with
  | (val, true) =>
    match env.unmarshalLocations val with
    | .error e => ⟨config, [.cacheGet config.Previous], .returned (some e)⟩
    | .ok locations =>
      ⟨{ config with Next := locations.Next, Previous := locations.Previous },
        [.cacheGet config.Previous] ++ locations.Results.map (fun r => .println r.Name),
        .returned none⟩
  | (_, false) =>
    match env.httpGet config.Previous with
    | .error e =>
      ⟨config, [.cacheGet config.Previous, .httpGet config.Previous], .returned (some e)⟩
    | .ok res =>
      match env.unmarshalLocations res.Body with
      | .error e =>
        ⟨config, [.cacheGet config.Previous, .httpGet config.Previous], .returned (some e)⟩
      | .ok locations =>
        if res.StatusCode > 299 then
          ⟨config, [.cacheGet config.Previous, .httpGet config.Previous], .returned none⟩
        else
          ⟨{ config with
              Cache := config.Cache.Add env.now config.Previous res.Body
              Next := locations.Next
              Previous := locations.Previous },
            [.cacheGet config.Previous, .httpGet config.Previous,
              .cacheAdd config.Previous res.Body]
              ++ locations.Results.map (fun r => .println r.Name),
            .returned none⟩

/-- The lines `commandExplore` prints once it has a `LocationArea`. -/
def exploreLines (config : Config) (locationArea : LocationArea) : List Event :=
  [.println ("Exploring " ++ config.Args ++ "..."), .println "Found Pokemon:"]
    ++ locationArea.PokemonEncounters.map (fun name => .println (" - " ++ name))

/-- The handler `commandExplore`. -/
def commandExplore (env : Env) (config : Config) : Outcome :=
  let query : String := config.Next ++ "/" ++ config.Args
  match config.Cache.Get query with
  | (val, true) =>
    match env.unmarshalLocationArea val with
    | .error e => ⟨config, [.cacheGet query], .returned (some e)⟩
    | .ok locationArea =>
      ⟨config, [.cacheGet query] ++ exploreLines config locationArea, .returned none⟩
  | (_, false) =>
    match env.httpGet query with
    | .error e => ⟨config, [.cacheGet query, .httpGet query], .returned (some e)⟩
    | .ok res =>
      match env.unmarshalLocationArea res.Body with
      | .error e => ⟨config, [.cacheGet query, .httpGet query], .returned (some e)⟩
      | .ok locationArea =>
        if res.StatusCode > 299 then
          ⟨config, [.cacheGet query, .httpGet query], .returned none⟩
        else
          ⟨{ config with Cache := config.Cache.Add env.now config.Next res.Body },
            [.cacheGet query, .httpGet query, .cacheAdd config.Next res.Body]
              ++ exploreLines config locationArea,
            .returned none⟩

/-- The tail of `commandCatch`, from the line "Throwing a Pokeball" on.
`draw` is the value `rand.Intn(pokemon.BaseExperience)` returns, a number in
`[0, BaseExperience)`; `rand.Intn` panics when its argument is not positive.
`registry` is the global `pokemonRegistry`, which `repl` has initialised. -/
def throwBall (config : Config) (registry : GoMap Pokemon) (draw : Int) (pokemon : Pokemon)
    (before : List Event) : Outcome × GoMap Pokemon :=
  let thrown := before ++ [.println ("Throwing a Pokeball at " ++ config.Args ++ "...")]
  if pokemon.BaseExperience ≤ 0 then
    (⟨config, thrown, .panicked⟩, registry)
  else
    let catchTry : Int := draw
    if catchTry ≤ 20 then
      (⟨config, thrown ++ [.println (config.Args ++ " was caught!")], .returned none⟩,
        registry.set config.Args pokemon)
    else
      (⟨config, thrown ++ [.println (config.Args ++ " escaped!")], .returned none⟩, registry)

/-- The handler `commandCatch`; it also yields the global `pokemonRegistry`
it leaves behind. -/
def commandCatch (env : Env) (config : Config) (registry : GoMap Pokemon) (draw : Int) :
    Outcome × GoMap Pokemon :=
  let query : String := config.PokemonInfo ++ "/" ++ config.Args
  match config.Cache.Get query with
  | (val, true) =>
    match env.unmarshalPokemon val with
    | .error e => (⟨config, [.cacheGet query], .returned (some e)⟩, registry)
    | .ok pokemon => throwBall config registry draw pokemon [.cacheGet query]
  | (_, false) =>
    match env.httpGet query with
    | .error e => (⟨config, [.cacheGet query, .httpGet query], .returned (some e)⟩, registry)
    | .ok res =>
      match env.unmarshalPokemon res.Body with
      | .error e =>
        (⟨config, [.cacheGet query, .httpGet query], .returned (some e)⟩, registry)
      | .ok pokemon =>
        if res.StatusCode > 299 then
          (⟨config, [.cacheGet query, .httpGet query], .returned none⟩, registry)
        else
          throwBall { config with Cache := config.Cache.Add env.now config.Next res.Body }
            registry draw pokemon
            [.cacheGet query, .httpGet query, .cacheAdd config.Next res.Body]

/-- The cache and network calls among the actions, in order (printing dropped). -/
def calls (events : List Event) : List Event :=
  events.filter (fun ev => match ev with
    | .println _ => false
    | _ => true)

/-- The keys passed to `Cache.Get`, in order. -/
def getKeys (events : List Event) : List String :=
  events.filterMap (fun ev => match ev with
    | .cacheGet key => some key
    | _ => none)

/-- The keys passed to `Cache.Add`, in order. -/
def addKeys (events : List Event) : List String :=
  events.filterMap (fun ev => match ev with
    | .cacheAdd key _ => some key
    | _ => none)

/-- The URLs passed to `http.Get`, in order. -/
def httpCalls (events : List Event) : List String :=
  events.filterMap (fun ev => match ev with
    | .httpGet url => some url
    | _ => none)

/-- The collaborator's duty as the interface section words it: on a hit
neither a request nor an `Add`; on a miss the request is issued, and then the
result is added (once, the response body, under `addKey`) exactly when the
request returned without error, the body decoded and the status code is
`<= 299`. -/
def expectedCalls (found : Bool) (response : Except String HttpResponse)
    (decodes : Bytes → Bool) (getKey addKey : String) : List Event :=
  if found then [.cacheGet getKey]
  else
    match response with
    | .error _ => [.cacheGet getKey, .httpGet getKey]
    | .ok res =>
      if decodes res.Body && decide (res.StatusCode ≤ 299) then
        [.cacheGet getKey, .httpGet getKey, .cacheAdd addKey res.Body]
      else [.cacheGet getKey, .httpGet getKey]

/-- The cache a collaborator leaves behind, as the interface section words it:
on a hit the cache as it was; on a miss the cache with the response body added
under `addKey` (stamped `now`) exactly when the request returned without
error, the body decoded and the status code is `<= 299`, and the cache as it
was otherwise. -/
def expectedCache (cache : Cache) (now : Int) (found : Bool)
    (response : Except String HttpResponse) (decodes : Bytes → Bool) (addKey : String) :
    Cache :=
  if found then cache
  else
    match response with
    | .error _ => cache
    | .ok res =>
      if decodes res.Body && decide (res.StatusCode ≤ 299) then
        cache.Add now addKey res.Body
      else cache

/-- The handler `commandCatch` gets hold of `pokemon`: from the cache (hit and
the payload decodes), or from the network (miss, the request returns, the body
decodes and the status code is `<= 299`). -/
def fetchesPokemon (env : Env) (config : Config) (pokemon : Pokemon) : Prop :=
  (∃ val, config.Cache.Get (config.PokemonInfo ++ "/" ++ config.Args) = (val, true) ∧
      env.unmarshalPokemon val = .ok pokemon) ∨
  (∃ val res, config.Cache.Get (config.PokemonInfo ++ "/" ++ config.Args) = (val, false) ∧
      env.httpGet (config.PokemonInfo ++ "/" ++ config.Args) = .ok res ∧
      env.unmarshalPokemon res.Body = .ok pokemon ∧ res.StatusCode ≤ 299)

/-- The `Config` that `repl` builds before its loop (five minutes in
nanoseconds as the cache interval), with `arg` as the argument of the
command line read. -/
def replConfig (arg : String) : Config :=
  { Next := "https://pokeapi.co/api/v2/location-area"
    Previous := ""
    PokemonInfo := "https://pokeapi.co/api/v2/pokemon/"
    Cache := Cache.NewCache 300000000000
    Args := arg }

/-- A sample Pokémon with base experience `n`. -/
def samplePokemon (n : Int) : Pokemon :=
  { BaseExperience := n, Height := 4, ID := 25, IsDefault := true, Name := "pikachu",
    Order := 35, Stats := [("hp", 35)], Types := ["electric"], Weight := 60 }

/-- A sample surrounding: every request is answered `200` with the body `{}`,
and every payload decodes (the Pokémon with base experience `n`). -/
def sampleEnv (n : Int) : Env :=
  { now := 1000
    httpGet := fun _ => .ok ⟨200, [123, 125]⟩
    unmarshalLocations := fun _ => .ok ⟨0, "", "", []⟩
    unmarshalLocationArea := fun _ => .ok ⟨0, 0, "", []⟩
    unmarshalPokemon := fun _ => .ok (samplePokemon n) }

/-! ## The input line and the command table of `repl.go` -/

/-- The test `strings.HasPrefix` on code points: `s` begins with `pre`. -/
def hasPrefixChars : List Char → List Char → Bool
  | [], _ => true
  | _ :: _, [] => false
  | p :: ps, c :: cs => p == c && hasPrefixChars ps cs

/-- The library function `strings.ToLower`: every code point is mapped by
`unicode.ToLower`, which is the parameter `lower` (the case table of the Go
library).  Strings are taken as sequences of code points. -/
def stringsToLower (lower : Char → Char) (s : String) : String := ⟨s.data.map lower⟩

/-- The scan behind `strings.ReplaceAll` for a non-empty `old`: left to right,
every occurrence of `old` that does not overlap an earlier one is replaced by
`new`.  `skip` counts the code points of a matched occurrence still to pass. -/
def replaceAllChars (old new : List Char) : Nat → List Char → List Char
  | _, [] => []
  | skip + 1, _ :: rest => replaceAllChars old new skip rest
  | 0, c :: rest =>
      if hasPrefixChars old (c :: rest) then
        new ++ replaceAllChars old new (old.length - 1) rest
      else c :: replaceAllChars old new 0 rest

/-- The library function `strings.ReplaceAll(s, old, new)`.  For an empty `old`
it puts `new` before every code point and at the end. -/
def stringsReplaceAll (s old new : String) : String :=
  if old.data = [] then ⟨new.data ++ s.data.flatMap (fun c => c :: new.data)⟩
  else ⟨replaceAllChars old.data new.data 0 s.data⟩

/-- The library predicate `unicode.IsSpace`: the code points with the property
White_Space. -/
def unicodeIsSpace (c : Char) : Bool :=
  (9 ≤ c.toNat && c.toNat ≤ 13) || c.toNat = 32 || c.toNat = 133 || c.toNat = 160 ||
  c.toNat = 5760 || (8192 ≤ c.toNat && c.toNat ≤ 8202) || c.toNat = 8232 ||
  c.toNat = 8233 || c.toNat = 8239 || c.toNat = 8287 || c.toNat = 12288

/-- The library function `strings.TrimSpace`: leading and trailing white space
removed. -/
def stringsTrimSpace (s : String) : String :=
  ⟨((s.data.dropWhile unicodeIsSpace).reverse.dropWhile unicodeIsSpace).reverse⟩

/-- The scan behind `strings.Split` for a non-empty `sep`: `cur` holds, newest
first, the code points of the piece being read; `skip` counts the code points
of a matched separator still to pass. -/
def splitChars (sep : List Char) : Nat → List Char → List Char → List (List Char)
  | _, cur, [] => [cur.reverse]
  | skip + 1, cur, _ :: rest => splitChars sep skip cur rest
  | 0, cur, c :: rest =>
      if hasPrefixChars sep (c :: rest) then
        cur.reverse :: splitChars sep (sep.length - 1) [] rest
      else splitChars sep 0 (c :: cur) rest

/-- The library function `strings.Split(s, sep)`.  For an empty `sep` it cuts
after every code point (and yields no piece for the empty string). -/
def stringsSplit (s sep : String) : List String :=
  if sep.data = [] then s.data.map (fun c => String.mk [c])
  else (splitChars sep.data 0 [] s.data).map String.mk

/-- The function `cleanInput`. -/
def cleanInput (lower : Char → Char) (text : String) : List String :=
  let str := stringsToLower lower text
  let str := stringsReplaceAll str "  " " "
  let str := stringsTrimSpace str
  stringsSplit str " "

/-- The handlers a `cliCommand` can point to. -/
inductive Callback where
  | commandPokedex
  | commandInspect
  | commandCatch
  | commandExplore
  | commandMap
  | commandMapb
  | commandExit
  | commandHelp
deriving DecidableEq, Repr

/-- The struct `cliCommand`. -/
structure cliCommand where
  name : String
  description : String
  callback : Callback
deriving DecidableEq, Repr

/-- The global `cmdRegistry` as `repl` fills it. -/
def cmdRegistry : GoMap cliCommand :=
  ⟨[("pokedex", ⟨"pokedex", "List all names of the pokemon the user has caught",
        Callback.commandPokedex⟩),
    ("inspect", ⟨"inspect",
        "Inspects a pokemon and displays its name, weight, stats, and type(s)",
        Callback.commandInspect⟩),
    ("catch", ⟨"catch", "Trys to catch a pokemon given the name", Callback.commandCatch⟩),
    ("explore", ⟨"explore", "Displays all pokeman in a given area",
        Callback.commandExplore⟩),
    ("map", ⟨"map", "Displays all areas", Callback.commandMap⟩),
    ("mapb", ⟨"mapb", "Displays all areas", Callback.commandMapb⟩),
    ("exit", ⟨"exit", "Exit the Pokedex", Callback.commandExit⟩),
    ("help", ⟨"help", "Displays a help message", Callback.commandHelp⟩)],
   by decide⟩

/-- The line `cmd, ok := cmdRegistry[args[0]]` of the loop in `repl`: `none`
when the index `0` is out of range (the program panics), otherwise the result
of the lookup (`some none` is `ok = false`). -/
def lookupCommand (args : List String) : Option (Option cliCommand) :=
  match args with
  | [] => none
  | first :: _ => some (cmdRegistry.get? first)

/-- A sample for `unicode.ToLower`: its restriction to ASCII (the letters `A`
to `Z` are moved to `a` to `z`, every other code point is kept). -/
def asciiToLower (c : Char) : Char :=
  if 65 ≤ c.toNat ∧ c.toNat ≤ 90 then Char.ofNat (c.toNat + 32) else c

/-! ## Facts about Go maps -/

namespace GoMap

variable {α : Type}

theorem lookup_filter_ne (l : List (String × α)) (k k' : String) (h : k' ≠ k) :
    (l.filter (fun p => p.1 != k)).lookup k' = l.lookup k' := by
  induction l with
  | nil => rfl
  | cons p l ih =>
    obtain ⟨a, b⟩ := p
    by_cases ha : a = k
    · subst ha
      have hk : (k' == a) = false := by simpa using h
      simp [List.filter_cons, List.lookup_cons, hk, ih]
    · have hne : (a != k) = true := by simpa using ha
      simp only [List.filter_cons, hne, if_true, List.lookup_cons, ih]

theorem lookup_filter_self (l : List (String × α)) (k : String) :
    (l.filter (fun p => p.1 != k)).lookup k = none := by
  induction l with
  | nil => rfl
  | cons p l ih =>
    obtain ⟨a, b⟩ := p
    by_cases ha : a = k
    · subst ha
      simp [List.filter_cons, ih]
    · have hne : (a != k) = true := by simpa using ha
      have hk : (k == a) = false := by simpa using fun h : k = a => ha h.symm
      simp only [List.filter_cons, hne, if_true, List.lookup_cons, hk, ih]

theorem get?_empty (k : String) : (empty : GoMap α).get? k = none := rfl

theorem get?_set_self (m : GoMap α) (k : String) (v : α) :
    (m.set k v).get? k = some v := by
  simp [get?, set, List.lookup_cons]

theorem get?_set_ne (m : GoMap α) (k k' : String) (v : α) (h : k' ≠ k) :
    (m.set k v).get? k' = m.get? k' := by
  have hk : (k' == k) = false := by simpa using h
  simp only [get?, set, List.lookup_cons, hk]
  exact lookup_filter_ne _ _ _ h

theorem get?_delete_self (m : GoMap α) (k : String) : (m.delete k).get? k = none :=
  lookup_filter_self _ _

theorem get?_delete_ne (m : GoMap α) (k k' : String) (h : k' ≠ k) :
    (m.delete k).get? k' = m.get? k' :=
  lookup_filter_ne _ _ _ h

theorem lookup_of_mem (l : List (String × α)) (h : (l.map Prod.fst).Nodup)
    (k : String) (v : α) (hm : (k, v) ∈ l) : l.lookup k = some v := by
  induction l with
  | nil => simp at hm
  | cons p l ih =>
    obtain ⟨a, b⟩ := p
    rw [List.map_cons, List.nodup_cons] at h
    rcases List.mem_cons.1 hm with heq | hin
    · cases heq
      simp [List.lookup_cons]
    · have hne : k ≠ a := by
        intro hka
        subst hka
        exact h.1 (List.mem_map.2 ⟨(k, v), hin, rfl⟩)
      have hk : (k == a) = false := by simpa using hne
      simp only [List.lookup_cons, hk]
      exact ih h.2 hin

theorem mem_of_lookup (l : List (String × α)) (k : String) (v : α)
    (h : l.lookup k = some v) : (k, v) ∈ l := by
  induction l with
  | nil => simp at h
  | cons p l ih =>
    obtain ⟨a, b⟩ := p
    by_cases hka : k = a
    · subst hka
      simp [List.lookup_cons] at h
      simp [h]
    · have hk : (k == a) = false := by simpa using hka
      simp only [List.lookup_cons, hk] at h
      exact List.mem_cons_of_mem _ (ih h)

theorem get?_eq_some_iff (m : GoMap α) (k : String) (v : α) :
    m.get? k = some v ↔ (k, v) ∈ m.items :=
  ⟨mem_of_lookup _ _ _, lookup_of_mem _ m.keysUnique _ _⟩

theorem get?_delete_of_none (m : GoMap α) (a k : String) (h : m.get? k = none) :
    (m.delete a).get? k = none := by
  by_cases hka : k = a
  · subst hka
    exact get?_delete_self _ _
  · rw [get?_delete_ne _ _ _ hka, h]

/-- A key that is absent stays absent through a loop of deletions. -/
theorem get?_foldl_delete_none (dead : α → Bool) (l : List (String × α)) (m : GoMap α)
    (k : String) (h : m.get? k = none) :
    (l.foldl (fun acc p => if dead p.2 then acc.delete p.1 else acc) m).get? k = none := by
  induction l generalizing m with
  | nil => exact h
  | cons p l ih =>
    rw [List.foldl_cons]
    apply ih
    by_cases hd : dead p.2 = true
    · simp only [hd, if_true]
      exact get?_delete_of_none _ _ _ h
    · simp only [hd]
      exact h

/-- Reading a key after a loop that deletes every listed binding satisfying
`dead`: the key is gone if one of the listed bindings for it is dead. -/
theorem get?_foldl_delete_dead (dead : α → Bool) (l : List (String × α)) (m : GoMap α)
    (k : String) (h : ∃ v, (k, v) ∈ l ∧ dead v = true) :
    (l.foldl (fun acc p => if dead p.2 then acc.delete p.1 else acc) m).get? k = none := by
  induction l generalizing m with
  | nil => simp at h
  | cons p l ih =>
    obtain ⟨a, b⟩ := p
    rw [List.foldl_cons]
    obtain ⟨v, hv, hd⟩ := h
    rcases List.mem_cons.1 hv with heq | hin
    · cases heq
      simp only [hd, if_true]
      exact get?_foldl_delete_none _ _ _ _ (get?_delete_self _ _)
    · exact ih _ ⟨v, hin, hd⟩

/-- Reading a key after a loop that deletes every listed binding satisfying
`dead`: the key is read as before if none of the listed bindings for it is
dead. -/
theorem get?_foldl_delete_alive (dead : α → Bool) (l : List (String × α)) (m : GoMap α)
    (k : String) (h : ∀ v, (k, v) ∈ l → dead v = false) :
    (l.foldl (fun acc p => if dead p.2 then acc.delete p.1 else acc) m).get? k =
      m.get? k := by
  induction l generalizing m with
  | nil => rfl
  | cons p l ih =>
    obtain ⟨a, b⟩ := p
    rw [List.foldl_cons, ih _ (fun v hv => h v (List.mem_cons_of_mem _ hv))]
    by_cases hd : dead b = true
    · have hka : k ≠ a := by
        intro hka
        subst hka
        have := h b (List.mem_cons_self _ _)
        rw [hd] at this
        exact Bool.noConfusion this
      simp only [hd, if_true]
      exact get?_delete_ne _ _ _ hka
    · simp only [hd]
      rfl

end GoMap

/-! ## Facts about the cache -/

namespace Cache

theorem Get_of_some (c : Cache) (k : String) (e : CacheEntry)
    (h : c.entries.get? k = some e) : c.Get k = (e.value, true) := by
  simp [Get, h]

theorem Get_of_none (c : Cache) (k : String) (h : c.entries.get? k = none) :
    c.Get k = ([], false) := by
  simp [Get, h]

theorem Get_Add_self (c : Cache) (now : Int) (k : String) (v : Bytes) :
    (c.Add now k v).Get k = (v, true) :=
  Get_of_some _ _ ⟨now, v⟩ (GoMap.get?_set_self _ _ _)

theorem Get_Add_ne (c : Cache) (now : Int) (k k' : String) (v : Bytes) (h : k' ≠ k) :
    (c.Add now k v).Get k' = c.Get k' := by
  simp only [Get, Add, GoMap.get?_set_ne _ _ _ _ h]

theorem reap_entries (c : Cache) (now : Int) :
    (c.reap now).entries =
      c.entries.items.foldl
        (fun acc p =>
          if (fun e : CacheEntry => decide (c.interval ≤ now - e.createdAt)) p.2
          then acc.delete p.1 else acc)
        c.entries := by
  simp only [reap, decide_eq_true_eq]

theorem reap_interval (c : Cache) (now : Int) : (c.reap now).interval = c.interval := rfl

theorem reap_get?_none (c : Cache) (now : Int) (k : String)
    (h : c.entries.get? k = none) : (c.reap now).entries.get? k = none := by
  rw [reap_entries]
  exact GoMap.get?_foldl_delete_none
    (fun e : CacheEntry => decide (c.interval ≤ now - e.createdAt)) _ _ _ h

theorem reap_get?_expired (c : Cache) (now : Int) (k : String) (e : CacheEntry)
    (h : c.entries.get? k = some e) (hage : c.interval ≤ now - e.createdAt) :
    (c.reap now).entries.get? k = none := by
  rw [reap_entries]
  exact GoMap.get?_foldl_delete_dead
    (fun e : CacheEntry => decide (c.interval ≤ now - e.createdAt)) _ _ _
    ⟨e, (GoMap.get?_eq_some_iff _ _ _).1 h, by simpa using hage⟩

theorem reap_get?_fresh (c : Cache) (now : Int) (k : String) (e : CacheEntry)
    (h : c.entries.get? k = some e) (hage : now - e.createdAt < c.interval) :
    (c.reap now).entries.get? k = some e := by
  rw [reap_entries, GoMap.get?_foldl_delete_alive
    (fun e : CacheEntry => decide (c.interval ≤ now - e.createdAt)), h]
  intro v hv
  have hve : some v = some e := by
    rw [← h, (GoMap.get?_eq_some_iff _ _ _).2 hv]
  cases hve
  simpa using hage

end Cache

theorem run_cons (c : Cache) (op : Op) (ops : List Op) :
    run c (op :: ops) = run (step c op) ops := rfl

theorem run_append (c : Cache) (xs ys : List Op) :
    run c (xs ++ ys) = run (run c xs) ys := by
  simp [run, List.foldl_append]

/-- Without a sweep, `Get` is decided by the most recent `Add` of the key, and
by the initial store when there is none. -/
theorem Get_run_noSweep (c : Cache) (ops : List Op) (k : String)
    (hs : noSweep ops = true) :
    (run c ops).Get k =
      match lastAdded k ops with
      | some w => (w, true)
      | none => c.Get k := by
  induction ops generalizing c with
  | nil => rfl
  | cons op rest ih =>
    cases op with
    | add now key value =>
      rw [run_cons, ih _ (by simpa [noSweep] using hs)]
      simp only [lastAdded, step]
      cases hl : lastAdded k rest with
      | some w => rfl
      | none =>
        by_cases hk : key = k
        · subst hk
          simp [Cache.Get_Add_self]
        · simp only [if_neg hk]
          exact Cache.Get_Add_ne _ _ _ _ _ (fun h => hk h.symm)
    | get key =>
      rw [run_cons, ih _ (by simpa [noSweep] using hs)]
      rfl
    | sweep now => simp [noSweep] at hs

/-- A key without an entry stays without one as long as it is not added. -/
theorem run_get?_none (c : Cache) (ops : List Op) (k : String)
    (h : c.entries.get? k = none) (hno : ∀ now v, Op.add now k v ∉ ops) :
    (run c ops).entries.get? k = none := by
  induction ops generalizing c with
  | nil => exact h
  | cons op rest ih =>
    rw [run_cons]
    apply ih
    · cases op with
      | add now key value =>
        have hk : k ≠ key := by
          intro hk
          subst hk
          exact hno now value (List.mem_cons_self _ _)
        simp only [step, Cache.Add]
        rw [GoMap.get?_set_ne _ _ _ _ hk]
        exact h
      | get key => exact h
      | sweep now => exact Cache.reap_get?_none _ _ _ h
    · intro now v hmem
      exact hno now v (List.mem_cons_of_mem _ hmem)

/-- Dropping the `Get` calls from a sequence of operations does not change the
store it produces. -/
theorem run_without_gets (c : Cache) (ops : List Op) :
    run c (ops.filter (fun op => !op.isGet)) = run c ops := by
  induction ops generalizing c with
  | nil => rfl
  | cons op rest ih =>
    cases op with
    | add now key value =>
      simp only [List.filter_cons, Op.isGet, Bool.not_false, if_true, run_cons]
      exact ih _
    | get key =>
      simp only [List.filter_cons, Op.isGet, Bool.not_true, run_cons, step]
      exact ih _
    | sweep now =>
      simp only [List.filter_cons, Op.isGet, Bool.not_false, if_true, run_cons]
      exact ih _

theorem not_mem_of_lastAdded_none (k : String) (ops : List Op)
    (h : lastAdded k ops = none) : ∀ now v, Op.add now k v ∉ ops := by
  induction ops with
  | nil => simp
  | cons op rest ih =>
    intro now v hmem
    cases op with
    | add now' key value =>
      simp only [lastAdded] at h
      cases hl : lastAdded k rest with
      | some w => simp [hl] at h
      | none =>
        rw [hl] at h
        by_cases hk : key = k
        · simp [hk] at h
        · rcases List.mem_cons.1 hmem with heq | hin
          · cases heq
            exact hk rfl
          · exact ih hl now v hin
    | get key =>
      rcases List.mem_cons.1 hmem with heq | hin
      · cases heq
      · exact ih (by simpa [lastAdded] using h) now v hin
    | sweep now' =>
      rcases List.mem_cons.1 hmem with heq | hin
      · cases heq
      · exact ih (by simpa [lastAdded] using h) now v hin

/-! ## Facts about the reaper's timetable -/

theorem sweepTicks_interval (c : Cache) (start : Int) (first count : Nat) :
    (sweepTicks c start first count).interval = c.interval := by
  induction count generalizing c first with
  | zero => rfl
  | succ n ih => rw [sweepTicks, ih, Cache.reap_interval]

theorem sweepTicks_get?_none (c : Cache) (start : Int) (first count : Nat) (k : String)
    (h : c.entries.get? k = none) :
    (sweepTicks c start first count).entries.get? k = none := by
  induction count generalizing c first with
  | zero => exact h
  | succ n ih =>
    rw [sweepTicks]
    exact ih _ _ (Cache.reap_get?_none _ _ _ h)

/-- An entry that survives the sweeps of ticks `first + 1 .. first + count` is
unchanged, and younger than `interval` at the last of these ticks. -/
theorem sweepTicks_get?_some (c : Cache) (start : Int) (first count : Nat) (k : String)
    (e : CacheEntry) (hI : 0 < c.interval) (h : c.entries.get? k = some e) :
    (sweepTicks c start first count).entries.get? k = none ∨
    ((sweepTicks c start first count).entries.get? k = some e ∧
      (count = 0 ∨
        start + ((first : Int) + (count : Int)) * c.interval < e.createdAt + c.interval)) := by
  induction count generalizing c first with
  | zero => exact Or.inr ⟨h, Or.inl rfl⟩
  | succ n ih =>
    rw [sweepTicks]
    by_cases hage : c.interval ≤ start + ((first : Int) + 1) * c.interval - e.createdAt
    · exact Or.inl (sweepTicks_get?_none _ _ _ _ _
        (Cache.reap_get?_expired _ _ _ _ h hage))
    · have hfresh := Cache.reap_get?_fresh c _ k e h (lt_of_not_le hage)
      rcases ih (c.reap (start + ((first : Int) + 1) * c.interval)) (first + 1)
          (by rw [Cache.reap_interval]; exact hI) hfresh with hn | ⟨hs, hb⟩
      · exact Or.inl hn
      · refine Or.inr ⟨hs, Or.inr ?_⟩
        rw [Cache.reap_interval] at hb
        rcases hb with h0 | hlt
        · subst h0
          push_cast
          have := lt_of_not_le hage
          linarith
        · push_cast at hlt ⊢
          have e1 : ((first : Int) + 1 + (n : Int)) = ((first : Int) + ((n : Int) + 1)) := by ring
          rw [← e1]
          exact hlt

theorem ticksDue_cast (start interval now : Int) (hI : 0 < interval) (h : start ≤ now) :
    ((ticksDue start interval now : Nat) : Int) = (now - start) / interval := by
  unfold ticksDue
  exact Int.toNat_of_nonneg (Int.ediv_nonneg (by linarith) (le_of_lt hI))

theorem ticksDue_mono (start interval a b : Int) (hI : 0 < interval) (h : a ≤ b) :
    ticksDue start interval a ≤ ticksDue start interval b := by
  unfold ticksDue
  exact Int.toNat_le_toNat (Int.ediv_le_ediv hI (by linarith))

/-- The last tick at or before `now` is at most `now`. -/
theorem ticksDue_le (start interval now : Int) (hI : 0 < interval) (h : start ≤ now) :
    start + (ticksDue start interval now : Int) * interval ≤ now := by
  rw [ticksDue_cast _ _ _ hI h]
  have := Int.ediv_mul_le (now - start) (ne_of_gt hI)
  linarith

/-- The tick after the last one at or before `now` is later than `now`. -/
theorem lt_ticksDue_succ (start interval now : Int) (hI : 0 < interval) (h : start ≤ now) :
    now < start + ((ticksDue start interval now : Int) + 1) * interval := by
  rw [ticksDue_cast _ _ _ hI h]
  have := Int.lt_ediv_add_one_mul_self (now - start) hI
  linarith

namespace Running

theorem advance_clock_ge (r : Running) (now : Int) : now ≤ (r.advance now).clock := by
  unfold advance
  split
  · assumption
  · exact le_refl _

theorem advance_clock_of_le (r : Running) (now : Int) (h : r.clock ≤ now) :
    (r.advance now).clock = now := by
  unfold advance
  split
  · exact le_antisymm h ‹now ≤ r.clock›
  · rfl

theorem advance_stale (start interval : Int) (k : String) (e : CacheEntry) (r : Running)
    (now : Int) (hI : 0 < interval) (h : Stale start interval k e r) :
    Stale start interval k e (r.advance now) := by
  obtain ⟨hs, hi, hc, hk⟩ := h
  unfold advance
  split
  · exact ⟨hs, hi, hc, hk⟩
  · rename_i hnow
    have hlt : r.clock < now := lt_of_not_le hnow
    refine ⟨hs, ?_, by simp only; linarith, ?_⟩
    · simp only [sweepTicks_interval, hi]
    · simp only [hs, hi]
      have hmono := ticksDue_mono start interval r.clock now hI (le_of_lt hlt)
      rcases hk with hn | ⟨hsome, hb⟩
      · exact Or.inl (sweepTicks_get?_none _ _ _ _ _ hn)
      · have hIc : 0 < r.cache.interval := by rw [hi]; exact hI
        rcases sweepTicks_get?_some r.cache start (ticksDue start interval r.clock)
            (ticksDue start interval now - ticksDue start interval r.clock) k e hIc hsome
          with hn | ⟨hs2, h0 | hlt2⟩
        · exact Or.inl hn
        · refine Or.inr ⟨hs2, ?_⟩
          have heq : ticksDue start interval now = ticksDue start interval r.clock := by omega
          rw [heq]
          exact hb
        · refine Or.inr ⟨hs2, ?_⟩
          rw [hi, Nat.cast_sub hmono] at hlt2
          have e1 : ((ticksDue start interval r.clock : Int) +
              ((ticksDue start interval now : Int) - (ticksDue start interval r.clock : Int)))
              = (ticksDue start interval now : Int) := by ring
          rw [e1] at hlt2
          exact hlt2

theorem addAt_stale (start interval : Int) (k : String) (e : CacheEntry) (r : Running)
    (b : TimedAdd) (hI : 0 < interval) (hb : b.key ≠ k) (h : Stale start interval k e r) :
    Stale start interval k e (r.addAt b) := by
  obtain ⟨hs, hi, hc, hk⟩ := advance_stale start interval k e r b.time hI h
  refine ⟨hs, hi, hc, ?_⟩
  simp only [addAt, Cache.Add]
  rw [GoMap.get?_set_ne _ _ _ _ (fun h => hb h.symm)]
  exact hk

theorem play_stale (start interval : Int) (k : String) (e : CacheEntry)
    (post : List TimedAdd) (r : Running) (hI : 0 < interval)
    (hpost : ∀ b ∈ post, b.key ≠ k) (h : Stale start interval k e r) :
    Stale start interval k e (r.play post) := by
  induction post generalizing r with
  | nil => exact h
  | cons b rest ih =>
    exact ih (r.addAt b) (fun c hc => hpost c (List.mem_cons_of_mem _ hc))
      (addAt_stale start interval k e r b hI (hpost b (List.mem_cons_self _ _)) h)

theorem advance_start (r : Running) (now : Int) : (r.advance now).start = r.start := by
  unfold advance
  split <;> rfl

theorem advance_interval (r : Running) (now : Int) :
    (r.advance now).cache.interval = r.cache.interval := by
  unfold advance
  split
  · rfl
  · exact sweepTicks_interval _ _ _ _

theorem addAt_get?_self (r : Running) (a : TimedAdd) (h : r.clock ≤ a.time) :
    (r.addAt a).cache.entries.get? a.key = some ⟨a.time, a.value⟩ := by
  simp only [addAt, Cache.Add, GoMap.get?_set_self, advance_clock_of_le r a.time h]

theorem addAt_stale_self (r : Running) (a : TimedAdd) (hI : 0 < r.cache.interval)
    (hstart : r.start ≤ r.clock) (ht : r.clock ≤ a.time) :
    Stale r.start r.cache.interval a.key ⟨a.time, a.value⟩ (r.addAt a) := by
  have hclock : (r.addAt a).clock = a.time := advance_clock_of_le r a.time ht
  refine ⟨advance_start r a.time, ?_, ?_, Or.inr ⟨addAt_get?_self r a ht, ?_⟩⟩
  · exact advance_interval r a.time
  · rw [hclock]; linarith
  · rw [hclock]
    have := ticksDue_le r.start r.cache.interval a.time hI (by linarith)
    simp only
    linarith

theorem advance_fresh (start interval upto : Int) (k : String) (e : CacheEntry) (r : Running)
    (now : Int) (hI : 0 < interval) (hnow : now ≤ upto)
    (hticks : ticksDue start interval upto = ticksDue start interval e.createdAt)
    (h : Fresh start interval upto k e r) :
    Fresh start interval upto k e (r.advance now) := by
  obtain ⟨hs, hi, hk, hlo, hhi⟩ := h
  unfold advance
  split
  · exact ⟨hs, hi, hk, hlo, hhi⟩
  · rename_i hn
    have hlt : r.clock < now := lt_of_not_le hn
    have h1 := ticksDue_mono start interval e.createdAt r.clock hI hlo
    have h2 := ticksDue_mono start interval now upto hI hnow
    have hzero : ticksDue r.start r.cache.interval now
        - ticksDue r.start r.cache.interval r.clock = 0 := by
      rw [hs, hi]; omega
    rw [hzero]
    exact ⟨hs, hi, hk, by simp only; linarith, hnow⟩

theorem play_fresh (start interval upto : Int) (k : String) (e : CacheEntry)
    (post : List TimedAdd) (r : Running) (hI : 0 < interval)
    (hkeys : ∀ b ∈ post, b.key ≠ k) (htimes : ∀ b ∈ post, b.time ≤ upto)
    (hticks : ticksDue start interval upto = ticksDue start interval e.createdAt)
    (h : Fresh start interval upto k e r) :
    Fresh start interval upto k e (r.play post) := by
  induction post generalizing r with
  | nil => exact h
  | cons b rest ih =>
    refine ih (r.addAt b) (fun c hc => hkeys c (List.mem_cons_of_mem _ hc))
      (fun c hc => htimes c (List.mem_cons_of_mem _ hc)) ?_
    obtain ⟨hs, hi, hk, hlo, hhi⟩ :=
      advance_fresh start interval upto k e r b.time hI
        (htimes b (List.mem_cons_self _ _)) hticks h
    refine ⟨hs, hi, ?_, hlo, hhi⟩
    simp only [addAt, Cache.Add]
    rw [GoMap.get?_set_ne _ _ _ _ (fun h => hkeys b (List.mem_cons_self _ _) h.symm)]
    exact hk

end Running

/-! ## Facts about `Get` calls on the timetable -/

namespace Running

end Running

theorem calls_append (xs ys : List Event) : calls (xs ++ ys) = calls xs ++ calls ys := by
  simp [calls]

theorem calls_map_println {α : Type} (f : α → String) (l : List α) :
    calls (l.map (fun a => Event.println (f a))) = [] := by
  induction l with
  | nil => rfl
  | cons a l ih => simp [calls]

theorem calls_exploreLines (config : Config) (area : LocationArea) :
    calls (exploreLines config area) = [] := by
  unfold exploreLines
  rw [calls_append, calls_map_println]
  rfl

theorem commandMap_calls (env : Env) (config : Config) :
    calls (commandMap env config).events =
      expectedCalls (config.Cache.Get config.Next).2 (env.httpGet config.Next)
        (fun b => (env.unmarshalLocations b).toBool) config.Next config.Next := by
  unfold commandMap expectedCalls
  rcases hg : config.Cache.Get config.Next with ⟨val, ok⟩
  cases ok
  · cases hh : env.httpGet config.Next with
    | error e => simp [calls]
    | ok res =>
      cases hd : env.unmarshalLocations res.Body with
      | error e => simp [calls, hd, Except.toBool]
      | ok locations =>
        by_cases hs : res.StatusCode > 299
        · have : ¬ res.StatusCode ≤ 299 := not_le.2 hs
          simp [calls, hd, Except.toBool, hs, this]
        · have : res.StatusCode ≤ 299 := not_lt.1 hs
          simp only [hs, if_false, hd, Except.toBool, this, decide_True, Bool.and_self,
            if_true, Bool.false_eq_true]
          rw [calls_append, calls_map_println]
          rfl
  · cases hd : env.unmarshalLocations val with
    | error e => simp [calls, hd]
    | ok locations =>
      simp only [if_true, hd]
      rw [calls_append, calls_map_println]
      rfl

theorem commandMapb_calls (env : Env) (config : Config) :
    calls (commandMapb env config).events =
      expectedCalls (config.Cache.Get config.Previous).2 (env.httpGet config.Previous)
        (fun b => (env.unmarshalLocations b).toBool) config.Previous config.Previous := by
  unfold commandMapb expectedCalls
  rcases hg : config.Cache.Get config.Previous with ⟨val, ok⟩
  cases ok
  · cases hh : env.httpGet config.Previous with
    | error e => simp [calls]
    | ok res =>
      cases hd : env.unmarshalLocations res.Body with
      | error e => simp [calls, hd, Except.toBool]
      | ok locations =>
        by_cases hs : res.StatusCode > 299
        · have : ¬ res.StatusCode ≤ 299 := not_le.2 hs
          simp [calls, hd, Except.toBool, hs, this]
        · have : res.StatusCode ≤ 299 := not_lt.1 hs
          simp only [hs, if_false, hd, Except.toBool, this, decide_True, Bool.and_self,
            if_true, Bool.false_eq_true]
          rw [calls_append, calls_map_println]
          rfl
  · cases hd : env.unmarshalLocations val with
    | error e => simp [calls, hd]
    | ok locations =>
      simp only [if_true, hd]
      rw [calls_append, calls_map_println]
      rfl

theorem commandExplore_calls (env : Env) (config : Config) :
    calls (commandExplore env config).events =
      expectedCalls (config.Cache.Get (config.Next ++ "/" ++ config.Args)).2
        (env.httpGet (config.Next ++ "/" ++ config.Args))
        (fun b => (env.unmarshalLocationArea b).toBool)
        (config.Next ++ "/" ++ config.Args) config.Next := by
  simp only [commandExplore, expectedCalls]
  rcases hg : config.Cache.Get (config.Next ++ "/" ++ config.Args) with ⟨val, ok⟩
  cases ok
  · cases hh : env.httpGet (config.Next ++ "/" ++ config.Args) with
    | error e => simp [calls]
    | ok res =>
      cases hd : env.unmarshalLocationArea res.Body with
      | error e => simp [calls, hd, Except.toBool]
      | ok area =>
        by_cases hs : res.StatusCode > 299
        · have : ¬ res.StatusCode ≤ 299 := not_le.2 hs
          simp [calls, hd, Except.toBool, hs, this]
        · have : res.StatusCode ≤ 299 := not_lt.1 hs
          simp only [hs, if_false, hd, Except.toBool, this, decide_True, Bool.and_self,
            if_true, Bool.false_eq_true]
          rw [calls_append, calls_exploreLines]
          rfl
  · cases hd : env.unmarshalLocationArea val with
    | error e => simp [calls, hd]
    | ok area =>
      simp only [if_true, hd]
      rw [calls_append, calls_exploreLines]
      rfl

theorem throwBall_calls (config : Config) (registry : GoMap Pokemon) (draw : Int)
    (pokemon : Pokemon) (before : List Event) :
    calls (throwBall config registry draw pokemon before).1.events = calls before := by
  unfold throwBall
  by_cases hb : pokemon.BaseExperience ≤ 0
  · simp [hb, calls]
  · by_cases hc : draw ≤ 20
    · simp [hb, hc, calls]
    · simp [hb, hc, calls]

theorem commandCatch_calls (env : Env) (config : Config) (registry : GoMap Pokemon)
    (draw : Int) :
    calls (commandCatch env config registry draw).1.events =
      expectedCalls (config.Cache.Get (config.PokemonInfo ++ "/" ++ config.Args)).2
        (env.httpGet (config.PokemonInfo ++ "/" ++ config.Args))
        (fun b => (env.unmarshalPokemon b).toBool)
        (config.PokemonInfo ++ "/" ++ config.Args) config.Next := by
  simp only [commandCatch, expectedCalls]
  rcases hg : config.Cache.Get (config.PokemonInfo ++ "/" ++ config.Args) with ⟨val, ok⟩
  cases ok
  · cases hh : env.httpGet (config.PokemonInfo ++ "/" ++ config.Args) with
    | error e => simp [calls]
    | ok res =>
      cases hd : env.unmarshalPokemon res.Body with
      | error e => simp [calls, hd, Except.toBool]
      | ok pokemon =>
        by_cases hs : res.StatusCode > 299
        · have : ¬ res.StatusCode ≤ 299 := not_le.2 hs
          simp [calls, hd, Except.toBool, hs, this]
        · have : res.StatusCode ≤ 299 := not_lt.1 hs
          simp only [hs, if_false, hd, Except.toBool, this, decide_True, Bool.and_self,
            if_true, Bool.false_eq_true]
          rw [throwBall_calls]
          rfl
  · cases hd : env.unmarshalPokemon val with
    | error e => simp [calls, hd]
    | ok pokemon =>
      simp only [if_true, hd]
      rw [throwBall_calls]
      rfl

theorem getKeys_calls (events : List Event) : getKeys (calls events) = getKeys events := by
  induction events with
  | nil => rfl
  | cons ev rest ih =>
    cases ev <;> simp_all [getKeys, calls, List.filter_cons, List.filterMap_cons]

theorem addKeys_calls (events : List Event) : addKeys (calls events) = addKeys events := by
  induction events with
  | nil => rfl
  | cons ev rest ih =>
    cases ev <;> simp_all [addKeys, calls, List.filter_cons, List.filterMap_cons]

theorem getKeys_expectedCalls (found : Bool) (response : Except String HttpResponse)
    (decodes : Bytes → Bool) (getKey addKey : String) :
    getKeys (expectedCalls found response decodes getKey addKey) = [getKey] := by
  unfold expectedCalls
  cases found
  · cases response with
    | error e => simp [getKeys]
    | ok res =>
      by_cases h : (decodes res.Body && decide (res.StatusCode ≤ 299)) = true
      · simp [getKeys, h]
      · simp [getKeys, h]
  · simp [getKeys]

theorem addKeys_expectedCalls (found : Bool) (response : Except String HttpResponse)
    (decodes : Bytes → Bool) (getKey addKey : String) :
    addKeys (expectedCalls found response decodes getKey addKey) = [] ∨
    addKeys (expectedCalls found response decodes getKey addKey) = [addKey] := by
  unfold expectedCalls
  cases found
  · cases response with
    | error e => simp [addKeys]
    | ok res =>
      by_cases h : (decodes res.Body && decide (res.StatusCode ≤ 299)) = true
      · simp [addKeys, h]
      · simp [addKeys, h]
  · simp [addKeys]

theorem ne_append_slash (s t : String) : s ≠ s ++ "/" ++ t := by
  intro h
  have hl := congrArg String.length h
  simp only [String.length_append] at hl
  have h1 : ("/" : String).length = 1 := rfl
  omega

theorem commandExplore_miss_ok (env : Env) (config : Config) (val : Bytes)
    (res : HttpResponse) (area : LocationArea)
    (hg : config.Cache.Get (config.Next ++ "/" ++ config.Args) = (val, false))
    (hh : env.httpGet (config.Next ++ "/" ++ config.Args) = .ok res)
    (hd : env.unmarshalLocationArea res.Body = .ok area) (hs : res.StatusCode ≤ 299) :
    commandExplore env config =
      ⟨{ config with Cache := config.Cache.Add env.now config.Next res.Body },
        [.cacheGet (config.Next ++ "/" ++ config.Args),
          .httpGet (config.Next ++ "/" ++ config.Args), .cacheAdd config.Next res.Body]
          ++ exploreLines config area,
        .returned none⟩ := by
  have hs2 : ¬ res.StatusCode > 299 := not_lt.2 hs
  simp only [commandExplore, hg, hh, hd, hs2, if_false]

theorem commandCatch_miss_ok (env : Env) (config : Config) (registry : GoMap Pokemon)
    (draw : Int) (val : Bytes) (res : HttpResponse) (pokemon : Pokemon)
    (hg : config.Cache.Get (config.PokemonInfo ++ "/" ++ config.Args) = (val, false))
    (hh : env.httpGet (config.PokemonInfo ++ "/" ++ config.Args) = .ok res)
    (hd : env.unmarshalPokemon res.Body = .ok pokemon) (hs : res.StatusCode ≤ 299) :
    commandCatch env config registry draw =
      throwBall { config with Cache := config.Cache.Add env.now config.Next res.Body }
        registry draw pokemon
        [.cacheGet (config.PokemonInfo ++ "/" ++ config.Args),
          .httpGet (config.PokemonInfo ++ "/" ++ config.Args),
          .cacheAdd config.Next res.Body] := by
  have hs2 : ¬ res.StatusCode > 299 := not_lt.2 hs
  simp only [commandCatch, hg, hh, hd, hs2, if_false]

theorem commandCatch_hit_ok (env : Env) (config : Config) (registry : GoMap Pokemon)
    (draw : Int) (val : Bytes) (pokemon : Pokemon)
    (hg : config.Cache.Get (config.PokemonInfo ++ "/" ++ config.Args) = (val, true))
    (hd : env.unmarshalPokemon val = .ok pokemon) :
    commandCatch env config registry draw =
      throwBall config registry draw pokemon
        [.cacheGet (config.PokemonInfo ++ "/" ++ config.Args)] := by
  simp only [commandCatch, hg, hd]

theorem throwBall_config (config : Config) (registry : GoMap Pokemon) (draw : Int)
    (pokemon : Pokemon) (before : List Event) :
    (throwBall config registry draw pokemon before).1.config = config := by
  unfold throwBall
  by_cases hb : pokemon.BaseExperience ≤ 0
  · simp [hb]
  · by_cases hc : draw ≤ 20
    · simp [hb, hc]
    · simp [hb, hc]

theorem throwBall_status (config : Config) (registry : GoMap Pokemon) (draw : Int)
    (pokemon : Pokemon) (before : List Event) :
    (throwBall config registry draw pokemon before).1.status =
      if pokemon.BaseExperience ≤ 0 then Status.panicked else Status.returned none := by
  unfold throwBall
  by_cases hb : pokemon.BaseExperience ≤ 0
  · simp [hb]
  · by_cases hc : draw ≤ 20
    · simp [hb, hc]
    · simp [hb, hc]

theorem throwBall_registry (config : Config) (registry : GoMap Pokemon) (draw : Int)
    (pokemon : Pokemon) (before : List Event) (hpos : 0 < pokemon.BaseExperience) :
    (throwBall config registry draw pokemon before).2 =
      if draw ≤ 20 then registry.set config.Args pokemon else registry := by
  unfold throwBall
  have hb : ¬ pokemon.BaseExperience ≤ 0 := not_le.2 hpos
  by_cases hc : draw ≤ 20
  · simp [hb, hc]
  · simp [hb, hc]

/-- A `commandMap` call that finds an entry under `config.Next` makes no
request and decodes the payload found. -/
theorem commandMap_hit (env : Env) (config : Config) (val : Bytes)
    (hg : config.Cache.Get config.Next = (val, true)) :
    calls (commandMap env config).events = [.cacheGet config.Next] ∧
    (commandMap env config).status =
      match env.unmarshalLocations val with
      | .error e => .returned (some e)
      | .ok _ => .returned none := by
  constructor
  · rw [commandMap_calls, hg]
    rfl
  · unfold commandMap
    rw [hg]
    cases hd : env.unmarshalLocations val with
    | error e => simp only [hd]
    | ok locations => simp only [hd]

theorem commandMap_cache (env : Env) (config : Config) :
    (commandMap env config).config.Cache =
      expectedCache config.Cache env.now (config.Cache.Get config.Next).2
        (env.httpGet config.Next) (fun b => (env.unmarshalLocations b).toBool)
        config.Next := by
  unfold commandMap expectedCache
  rcases hg : config.Cache.Get config.Next with ⟨val, ok⟩
  cases ok
  · cases hh : env.httpGet config.Next with
    | error e => simp
    | ok res =>
      cases hd : env.unmarshalLocations res.Body with
      | error e => simp [hd, Except.toBool]
      | ok locations =>
        by_cases hs : res.StatusCode > 299
        · have : ¬ res.StatusCode ≤ 299 := not_le.2 hs
          simp [hd, Except.toBool, hs, this]
        · have : res.StatusCode ≤ 299 := not_lt.1 hs
          simp [hd, Except.toBool, hs, this]
  · cases hd : env.unmarshalLocations val with
    | error e => simp [hd]
    | ok locations => simp [hd]

theorem commandMapb_cache (env : Env) (config : Config) :
    (commandMapb env config).config.Cache =
      expectedCache config.Cache env.now (config.Cache.Get config.Previous).2
        (env.httpGet config.Previous) (fun b => (env.unmarshalLocations b).toBool)
        config.Previous := by
  unfold commandMapb expectedCache
  rcases hg : config.Cache.Get config.Previous with ⟨val, ok⟩
  cases ok
  · cases hh : env.httpGet config.Previous with
    | error e => simp
    | ok res =>
      cases hd : env.unmarshalLocations res.Body with
      | error e => simp [hd, Except.toBool]
      | ok locations =>
        by_cases hs : res.StatusCode > 299
        · have : ¬ res.StatusCode ≤ 299 := not_le.2 hs
          simp [hd, Except.toBool, hs, this]
        · have : res.StatusCode ≤ 299 := not_lt.1 hs
          simp [hd, Except.toBool, hs, this]
  · cases hd : env.unmarshalLocations val with
    | error e => simp [hd]
    | ok locations => simp [hd]

theorem commandExplore_cache (env : Env) (config : Config) :
    (commandExplore env config).config.Cache =
      expectedCache config.Cache env.now
        (config.Cache.Get (config.Next ++ "/" ++ config.Args)).2
        (env.httpGet (config.Next ++ "/" ++ config.Args))
        (fun b => (env.unmarshalLocationArea b).toBool) config.Next := by
  simp only [commandExplore, expectedCache]
  rcases hg : config.Cache.Get (config.Next ++ "/" ++ config.Args) with ⟨val, ok⟩
  cases ok
  · cases hh : env.httpGet (config.Next ++ "/" ++ config.Args) with
    | error e => simp
    | ok res =>
      cases hd : env.unmarshalLocationArea res.Body with
      | error e => simp [hd, Except.toBool]
      | ok area =>
        by_cases hs : res.StatusCode > 299
        · have : ¬ res.StatusCode ≤ 299 := not_le.2 hs
          simp [hd, Except.toBool, hs, this]
        · have : res.StatusCode ≤ 299 := not_lt.1 hs
          simp [hd, Except.toBool, hs, this]
  · cases hd : env.unmarshalLocationArea val with
    | error e => simp [hd]
    | ok area => simp [hd]

theorem commandCatch_cache (env : Env) (config : Config) (registry : GoMap Pokemon)
    (draw : Int) :
    (commandCatch env config registry draw).1.config.Cache =
      expectedCache config.Cache env.now
        (config.Cache.Get (config.PokemonInfo ++ "/" ++ config.Args)).2
        (env.httpGet (config.PokemonInfo ++ "/" ++ config.Args))
        (fun b => (env.unmarshalPokemon b).toBool) config.Next := by
  simp only [commandCatch, expectedCache]
  rcases hg : config.Cache.Get (config.PokemonInfo ++ "/" ++ config.Args) with ⟨val, ok⟩
  cases ok
  · cases hh : env.httpGet (config.PokemonInfo ++ "/" ++ config.Args) with
    | error e => simp
    | ok res =>
      cases hd : env.unmarshalPokemon res.Body with
      | error e => simp [hd, Except.toBool]
      | ok pokemon =>
        by_cases hs : res.StatusCode > 299
        · have : ¬ res.StatusCode ≤ 299 := not_le.2 hs
          simp [hd, Except.toBool, hs, this]
        · have : res.StatusCode ≤ 299 := not_lt.1 hs
          simp [hd, Except.toBool, hs, this, throwBall_config]
  · cases hd : env.unmarshalPokemon val with
    | error e => simp [hd]
    | ok pokemon => simp [hd, throwBall_config]

/-! ## Facts about the input line -/

theorem splitChars_ne_nil (sep : List Char) (skip : Nat) (cur s : List Char) :
    splitChars sep skip cur s ≠ [] := by
  induction s generalizing skip cur with
  | nil => simp [splitChars]
  | cons c rest ih =>
    cases skip with
    | succ n =>
      rw [splitChars]
      exact ih n cur
    | zero =>
      rw [splitChars]
      by_cases h : hasPrefixChars sep (c :: rest) = true
      · rw [if_pos h]
        exact List.cons_ne_nil _ _
      · rw [if_neg h]
        exact ih 0 (c :: cur)

theorem stringsSplit_ne_nil (s sep : String) (hsep : sep.data ≠ []) :
    stringsSplit s sep ≠ [] := by
  unfold stringsSplit
  rw [if_neg hsep]
  intro h
  exact splitChars_ne_nil sep.data 0 [] s.data (List.map_eq_nil_iff.1 h)

/-- Replacing keeps a property that all code points of the text and of the
replacement have. -/
theorem replaceAllChars_all (P : Char → Prop) (old new : List Char) (skip : Nat)
    (s : List Char) (hnew : ∀ c ∈ new, P c) (hs : ∀ c ∈ s, P c) :
    ∀ c ∈ replaceAllChars old new skip s, P c := by
  induction s generalizing skip with
  | nil => simp [replaceAllChars]
  | cons a rest ih =>
    have hrest : ∀ c ∈ rest, P c := fun c hc => hs c (List.mem_cons_of_mem _ hc)
    cases skip with
    | succ n =>
      rw [replaceAllChars]
      exact ih n hrest
    | zero =>
      rw [replaceAllChars]
      by_cases h : hasPrefixChars old (a :: rest) = true
      · rw [if_pos h]
        intro c hc
        rcases List.mem_append.1 hc with h1 | h2
        · exact hnew c h1
        · exact ih _ hrest c h2
      · rw [if_neg h]
        intro c hc
        rcases List.mem_cons.1 hc with h1 | h2
        · rw [h1]
          exact hs a (List.mem_cons_self _ _)
        · exact ih 0 hrest c h2

theorem dropWhile_eq_nil_of_all (p : Char → Bool) (l : List Char)
    (h : ∀ c ∈ l, p c = true) : l.dropWhile p = [] := by
  induction l with
  | nil => rfl
  | cons a rest ih =>
    rw [List.dropWhile_cons, if_pos (h a (List.mem_cons_self _ _))]
    exact ih (fun c hc => h c (List.mem_cons_of_mem _ hc))

theorem stringsTrimSpace_of_all_space (s : String)
    (h : ∀ c ∈ s.data, unicodeIsSpace c = true) : stringsTrimSpace s = "" := by
  unfold stringsTrimSpace
  rw [dropWhile_eq_nil_of_all _ _ h]
  rfl

theorem cleanInput_of_all_space (lower : Char → Char) (text : String)
    (htext : ∀ c ∈ text.data, unicodeIsSpace c = true)
    (hlower : ∀ c, unicodeIsSpace c = true → unicodeIsSpace (lower c) = true) :
    cleanInput lower text = [""] := by
  have h1 : ∀ c ∈ (stringsToLower lower text).data, unicodeIsSpace c = true := by
    intro c hc
    simp only [stringsToLower, List.mem_map] at hc
    obtain ⟨a, ha, rfl⟩ := hc
    exact hlower a (htext a ha)
  have h2 : ∀ c ∈ (stringsReplaceAll (stringsToLower lower text) "  " " ").data,
      unicodeIsSpace c = true := by
    have hold : ("  " : String).data ≠ [] := by decide
    unfold stringsReplaceAll
    rw [if_neg hold]
    exact replaceAllChars_all (fun c => unicodeIsSpace c = true) _ _ 0 _
      (by decide) h1
  simp only [cleanInput]
  rw [stringsTrimSpace_of_all_space _ h2]
  decide

theorem asciiToLower_space (c : Char) (h : unicodeIsSpace c = true) :
    unicodeIsSpace (asciiToLower c) = true := by
  unfold asciiToLower
  by_cases hu : 65 ≤ c.toNat ∧ c.toNat ≤ 90
  · exfalso
    simp only [unicodeIsSpace, Bool.or_eq_true, Bool.and_eq_true, decide_eq_true_eq] at h
    omega
  · rw [if_neg hu]
    exact h

/-! ## The cache contract -/

/-- C1: after any sequence of `Add` (and `Get`) calls with no reaper sweep
in between, `Get(k)` returns `(v, true)` where `v` is the value of the most
recent `Add(k, _)`, whatever the store held before. -/
theorem Get_returns_most_recent_Add (c : Cache) (ops : List Op) (k : String) (v : Bytes)
    (hs : noSweep ops = true) (hv : lastAdded k ops = some v) :
    (run c ops).Get k = (v, true) := by
  rw [Get_run_noSweep c ops k hs, hv]

/-- Instance of C1: `Add("x", A); Add("x", B); Get("x")` returns `(B, true)`. -/
theorem Get_returns_most_recent_Add_witness :
    noSweep [Op.add 0 "x" [1], Op.add 5 "x" [2]] = true ∧
    lastAdded "x" [Op.add 0 "x" [1], Op.add 5 "x" [2]] = some [2] ∧
    (run (Cache.NewCache 100) [Op.add 0 "x" [1], Op.add 5 "x" [2]]).Get "x" = ([2], true) :=
  ⟨by decide, by decide,
    Get_returns_most_recent_Add (Cache.NewCache 100) [Op.add 0 "x" [1], Op.add 5 "x" [2]]
      "x" [2] (by decide) (by decide)⟩

/-- C2: `Get` is total and reports `found = false` for a key without an entry:
(1) on a cache built by any sequence of operations (sweeps included) in which
the key was never added, and (2) once a sweep has reaped the key's entry, for
as long as the key is not added again. -/
theorem Get_missing_key_not_found :
    (∀ (interval : Int) (ops : List Op) (k : String),
      lastAdded k ops = none →
      (run (Cache.NewCache interval) ops).Get k = ([], false)) ∧
    (∀ (c : Cache) (k : String) (e : CacheEntry) (now : Int) (later : List Op),
      c.entries.get? k = some e → c.interval ≤ now - e.createdAt →
      lastAdded k later = none →
      (run (c.reap now) later).Get k = ([], false)) := by
  refine ⟨?_, ?_⟩
  · intro interval ops k hno
    exact Cache.Get_of_none _ _
      (run_get?_none _ _ _ (GoMap.get?_empty k) (not_mem_of_lastAdded_none _ _ hno))
  · intro c k e now later he hage hno
    exact Cache.Get_of_none _ _
      (run_get?_none _ _ _ (Cache.reap_get?_expired _ _ _ _ he hage)
        (not_mem_of_lastAdded_none _ _ hno))

/-- Instance of C2: a key never added is not found after adds of another key
and a sweep; a key added at 0 and reaped at 100 (interval 100) is not found. -/
theorem Get_missing_key_not_found_witness :
    (run (Cache.NewCache 100) [Op.add 0 "a" [1], Op.sweep 50, Op.get "b"]).Get "b"
      = ([], false) ∧
    (run ((Cache.Add (Cache.NewCache 100) 0 "a" [1]).reap 100) [Op.add 120 "b" [2]]).Get "a"
      = ([], false) :=
  ⟨Get_missing_key_not_found.1 100 [Op.add 0 "a" [1], Op.sweep 50, Op.get "b"] "b"
      (by decide),
   Get_missing_key_not_found.2 (Cache.Add (Cache.NewCache 100) 0 "a" [1]) "a" ⟨0, [1]⟩ 100
      [Op.add 120 "b" [2]] (by decide) (by decide) (by decide)⟩

/-- C3: one reaper sweep at time `now` removes an entry exactly when
`now - createdAt >= interval`: an entry of that age is absent afterwards, a
younger one is still present with the same value and `createdAt`; a key
without an entry has none afterwards. -/
theorem reap_removes_iff_expired (c : Cache) (now : Int) (k : String) :
    (∀ e, c.entries.get? k = some e →
      (((c.reap now).entries.get? k = none ↔ c.interval ≤ now - e.createdAt) ∧
       (c.interval ≤ now - e.createdAt → (c.reap now).Get k = ([], false)) ∧
       (now - e.createdAt < c.interval →
          (c.reap now).entries.get? k = some e ∧ (c.reap now).Get k = (e.value, true)))) ∧
    (c.entries.get? k = none → (c.reap now).entries.get? k = none) := by
  refine ⟨?_, Cache.reap_get?_none c now k⟩
  intro e he
  refine ⟨⟨?_, Cache.reap_get?_expired c now k e he⟩, ?_, ?_⟩
  · intro hnone
    by_contra hlt
    rw [Cache.reap_get?_fresh c now k e he (lt_of_not_le hlt)] at hnone
    exact Option.noConfusion hnone
  · intro hage
    exact Cache.Get_of_none _ _ (Cache.reap_get?_expired c now k e he hage)
  · intro hlt
    exact ⟨Cache.reap_get?_fresh c now k e he hlt,
      Cache.Get_of_some _ _ _ (Cache.reap_get?_fresh c now k e he hlt)⟩

/-- Instance of C3: interval 100, entries stamped 0 and 1, sweep at 100: the
first is removed (age 100), the second (age 99) is kept. -/
theorem reap_removes_iff_expired_witness :
    ((Cache.Add (Cache.Add (Cache.NewCache 100) 0 "a" [1]) 1 "b" [2]).reap 100).Get "a"
      = ([], false) ∧
    ((Cache.Add (Cache.Add (Cache.NewCache 100) 0 "a" [1]) 1 "b" [2]).reap 100).entries.get? "b"
      = some ⟨1, [2]⟩ :=
  ⟨((reap_removes_iff_expired (Cache.Add (Cache.Add (Cache.NewCache 100) 0 "a" [1]) 1 "b" [2])
      100 "a").1 ⟨0, [1]⟩ (by decide)).2.1 (by decide),
   (((reap_removes_iff_expired (Cache.Add (Cache.Add (Cache.NewCache 100) 0 "a" [1]) 1 "b" [2])
      100 "b").1 ⟨1, [2]⟩ (by decide)).2.2 (by decide)).1⟩

/-- C7: bounded staleness.  In a cache with a positive interval whose reaper
sweeps at every multiple of the interval after construction, let an entry be
added at time `a.time` and not re-added (other keys may be added afterwards).
Then (1) at every time `T >= a.time + 2 * interval` the key is not found, and
(2) at every time `T >= a.time` with no tick in `(a.time, T]`, i.e. before the
first sweep that follows the `Add`, the key is found with the value added. -/
theorem bounded_staleness (r : Running) (a : TimedAdd) (post : List TimedAdd) (T : Int)
    (hI : 0 < r.cache.interval) (hstart : r.start ≤ r.clock) (ht : r.clock ≤ a.time)
    (hpost : ∀ b ∈ post, b.key ≠ a.key) :
    (a.time + 2 * r.cache.interval ≤ T →
      ((r.addAt a).play post).getAt T a.key = ([], false)) ∧
    (a.time ≤ T → (∀ b ∈ post, b.time ≤ T) →
      ticksDue r.start r.cache.interval T = ticksDue r.start r.cache.interval a.time →
      ((r.addAt a).play post).getAt T a.key = (a.value, true)) := by
  constructor
  · intro hT
    have hst := Running.advance_stale _ _ _ _ _ T hI
      (Running.play_stale _ _ _ _ post _ hI hpost (Running.addAt_stale_self r a hI hstart ht))
    obtain ⟨-, -, hc, hk⟩ := hst
    rcases hk with hn | ⟨-, hb⟩
    · exact Cache.Get_of_none _ _ hn
    · exfalso
      have h1 := Running.advance_clock_ge ((r.addAt a).play post) T
      have h2 := lt_ticksDue_succ r.start r.cache.interval _ hI hc
      simp only at hb
      linarith
  · intro hT htimes hticks
    have hfr : Fresh r.start r.cache.interval T a.key ⟨a.time, a.value⟩ (r.addAt a) :=
      ⟨Running.advance_start r a.time, Running.advance_interval r a.time,
        Running.addAt_get?_self r a ht,
        le_of_eq (Running.advance_clock_of_le r a.time ht).symm,
        le_of_eq_of_le (Running.advance_clock_of_le r a.time ht) hT⟩
    obtain ⟨-, -, hk, -, -⟩ := Running.advance_fresh _ _ T _ _ _ T hI (le_refl _) hticks
      (Running.play_fresh _ _ T _ _ post _ hI hpost htimes hticks hfr)
    exact Cache.Get_of_some _ _ _ hk

/-- Instance of C7 (times in milliseconds): interval 100, constructed at 0,
`Add("a", [1,2,3])` at 0; `Get("a")` at 10 returns `([1,2,3], true)`, and
`Get("a")` at 250 returns `found = false`. -/
theorem bounded_staleness_witness :
    ((Running.construct 100 0).addAt ⟨0, "a", [1, 2, 3]⟩).getAt 10 "a" = ([1, 2, 3], true) ∧
    ((Running.construct 100 0).addAt ⟨0, "a", [1, 2, 3]⟩).getAt 250 "a" = ([], false) :=
  ⟨(bounded_staleness (Running.construct 100 0) ⟨0, "a", [1, 2, 3]⟩ [] 10
      (by decide) (by decide) (by decide) (by simp)).2 (by decide) (by simp) (by decide),
   (bounded_staleness (Running.construct 100 0) ⟨0, "a", [1, 2, 3]⟩ [] 250
      (by decide) (by decide) (by decide) (by simp)).1 (by decide)⟩

/-! ## The handlers and the cache -/

/-- C5: the key each handler passes to `Add` on a miss, against the key it
passes to `Get`.  `commandMap` and `commandMapb` add under the key they looked
up (`config.Next`, `config.Previous`).  `commandExplore` looks up
`config.Next + "/" + config.Args` but adds under `config.Next`, a different
string for every `Config`; `commandCatch` looks up
`config.PokemonInfo + "/" + config.Args` but adds under `config.Next`.  With
the `Config` that `repl` builds and a successful request, the entry goes under
the location-area URL, and the same command run again misses and fetches
again. -/
theorem handlers_add_key_versus_get_key :
    (∀ (env : Env) (config : Config),
      getKeys (commandMap env config).events = [config.Next] ∧
      (addKeys (commandMap env config).events = [] ∨
        addKeys (commandMap env config).events = [config.Next])) ∧
    (∀ (env : Env) (config : Config),
      getKeys (commandMapb env config).events = [config.Previous] ∧
      (addKeys (commandMapb env config).events = [] ∨
        addKeys (commandMapb env config).events = [config.Previous])) ∧
    (∀ (env : Env) (config : Config),
      getKeys (commandExplore env config).events = [config.Next ++ "/" ++ config.Args] ∧
      (addKeys (commandExplore env config).events = [] ∨
        addKeys (commandExplore env config).events = [config.Next]) ∧
      config.Next ≠ config.Next ++ "/" ++ config.Args) ∧
    (∀ (env : Env) (config : Config) (registry : GoMap Pokemon) (draw : Int),
      getKeys (commandCatch env config registry draw).1.events
        = [config.PokemonInfo ++ "/" ++ config.Args] ∧
      (addKeys (commandCatch env config registry draw).1.events = [] ∨
        addKeys (commandCatch env config registry draw).1.events = [config.Next])) ∧
    (getKeys (commandExplore (sampleEnv 64) (replConfig "canalave-city-area")).events
        = ["https://pokeapi.co/api/v2/location-area/canalave-city-area"] ∧
      addKeys (commandExplore (sampleEnv 64) (replConfig "canalave-city-area")).events
        = ["https://pokeapi.co/api/v2/location-area"] ∧
      httpCalls (commandExplore (sampleEnv 64)
          (commandExplore (sampleEnv 64) (replConfig "canalave-city-area")).config).events
        = ["https://pokeapi.co/api/v2/location-area/canalave-city-area"]) ∧
    (getKeys (commandCatch (sampleEnv 64) (replConfig "pikachu") GoMap.empty 5).1.events
        = ["https://pokeapi.co/api/v2/pokemon//pikachu"] ∧
      addKeys (commandCatch (sampleEnv 64) (replConfig "pikachu") GoMap.empty 5).1.events
        = ["https://pokeapi.co/api/v2/location-area"] ∧
      httpCalls (commandCatch (sampleEnv 64)
          (commandCatch (sampleEnv 64) (replConfig "pikachu") GoMap.empty 5).1.config
          (commandCatch (sampleEnv 64) (replConfig "pikachu") GoMap.empty 5).2 5).1.events
        = ["https://pokeapi.co/api/v2/pokemon//pikachu"]) := by
  refine ⟨?_, ?_, ?_, ?_, ?_, ?_⟩
  · intro env config
    rw [← getKeys_calls, ← addKeys_calls, commandMap_calls]
    exact ⟨getKeys_expectedCalls _ _ _ _ _, addKeys_expectedCalls _ _ _ _ _⟩
  · intro env config
    rw [← getKeys_calls, ← addKeys_calls, commandMapb_calls]
    exact ⟨getKeys_expectedCalls _ _ _ _ _, addKeys_expectedCalls _ _ _ _ _⟩
  · intro env config
    rw [← getKeys_calls, ← addKeys_calls, commandExplore_calls]
    exact ⟨getKeys_expectedCalls _ _ _ _ _, addKeys_expectedCalls _ _ _ _ _,
      ne_append_slash _ _⟩
  · intro env config registry draw
    rw [← getKeys_calls, ← addKeys_calls, commandCatch_calls]
    exact ⟨getKeys_expectedCalls _ _ _ _ _, addKeys_expectedCalls _ _ _ _ _⟩
  · exact ⟨by decide, by decide, by decide⟩
  · exact ⟨by decide, by decide, by decide⟩

/-- C6: for each of `commandMap`, `commandMapb`, `commandExplore` and
`commandCatch`, every `Config` and every cache state, both the calls made and
the cache left behind are those the interface section asks for.  On a hit:
only the `Get`, and the cache is as it was.  On a miss: the `Get`, then the
request, and then, exactly when the request returned without error, the body
decoded and the status code is `<= 299`, one `Add` of the response body, after
which the cache is the old one with that body added; in every other case no
`Add` is made and the cache is as it was. -/
theorem handlers_fetch_and_add_only_on_miss (env : Env) (config : Config)
    (registry : GoMap Pokemon) (draw : Int) :
    (calls (commandMap env config).events =
        expectedCalls (config.Cache.Get config.Next).2 (env.httpGet config.Next)
          (fun b => (env.unmarshalLocations b).toBool) config.Next config.Next ∧
      (commandMap env config).config.Cache =
        expectedCache config.Cache env.now (config.Cache.Get config.Next).2
          (env.httpGet config.Next) (fun b => (env.unmarshalLocations b).toBool)
          config.Next) ∧
    (calls (commandMapb env config).events =
        expectedCalls (config.Cache.Get config.Previous).2 (env.httpGet config.Previous)
          (fun b => (env.unmarshalLocations b).toBool) config.Previous config.Previous ∧
      (commandMapb env config).config.Cache =
        expectedCache config.Cache env.now (config.Cache.Get config.Previous).2
          (env.httpGet config.Previous) (fun b => (env.unmarshalLocations b).toBool)
          config.Previous) ∧
    (calls (commandExplore env config).events =
        expectedCalls (config.Cache.Get (config.Next ++ "/" ++ config.Args)).2
          (env.httpGet (config.Next ++ "/" ++ config.Args))
          (fun b => (env.unmarshalLocationArea b).toBool)
          (config.Next ++ "/" ++ config.Args) config.Next ∧
      (commandExplore env config).config.Cache =
        expectedCache config.Cache env.now
          (config.Cache.Get (config.Next ++ "/" ++ config.Args)).2
          (env.httpGet (config.Next ++ "/" ++ config.Args))
          (fun b => (env.unmarshalLocationArea b).toBool) config.Next) ∧
    (calls (commandCatch env config registry draw).1.events =
        expectedCalls (config.Cache.Get (config.PokemonInfo ++ "/" ++ config.Args)).2
          (env.httpGet (config.PokemonInfo ++ "/" ++ config.Args))
          (fun b => (env.unmarshalPokemon b).toBool)
          (config.PokemonInfo ++ "/" ++ config.Args) config.Next ∧
      (commandCatch env config registry draw).1.config.Cache =
        expectedCache config.Cache env.now
          (config.Cache.Get (config.PokemonInfo ++ "/" ++ config.Args)).2
          (env.httpGet (config.PokemonInfo ++ "/" ++ config.Args))
          (fun b => (env.unmarshalPokemon b).toBool) config.Next) :=
  ⟨⟨commandMap_calls env config, commandMap_cache env config⟩,
    ⟨commandMapb_calls env config, commandMapb_cache env config⟩,
    ⟨commandExplore_calls env config, commandExplore_cache env config⟩,
    ⟨commandCatch_calls env config registry draw,
      commandCatch_cache env config registry draw⟩⟩

/-- C9: when the cache has no entry for the query URL and the request succeeds
(no error, the body decodes, status `<= 299`), `commandExplore` returns, and
`commandCatch` returns when the base experience is positive (it panics
otherwise, after the `Add`); in both, `config.Next` is unchanged and
`Get(config.Next)` then yields the body just fetched with `found = true`, so
that a following `commandMap` (in any surroundings) takes its hit branch:
it issues no request and decodes that body as a locations page. -/
theorem explore_and_catch_fill_the_entry_of_commandMap (env : Env) (config : Config)
    (registry : GoMap Pokemon) (draw : Int) :
    (∀ (res : HttpResponse) (area : LocationArea),
      (config.Cache.Get (config.Next ++ "/" ++ config.Args)).2 = false →
      env.httpGet (config.Next ++ "/" ++ config.Args) = .ok res →
      env.unmarshalLocationArea res.Body = .ok area → res.StatusCode ≤ 299 →
        (commandExplore env config).status = .returned none ∧
        (commandExplore env config).config.Next = config.Next ∧
        (commandExplore env config).config.Cache.Get config.Next = (res.Body, true) ∧
        ∀ env2 : Env,
          calls (commandMap env2 (commandExplore env config).config).events
            = [.cacheGet config.Next] ∧
          (commandMap env2 (commandExplore env config).config).status =
            match env2.unmarshalLocations res.Body with
            | .error e => .returned (some e)
            | .ok _ => .returned none) ∧
    (∀ (res : HttpResponse) (pokemon : Pokemon),
      (config.Cache.Get (config.PokemonInfo ++ "/" ++ config.Args)).2 = false →
      env.httpGet (config.PokemonInfo ++ "/" ++ config.Args) = .ok res →
      env.unmarshalPokemon res.Body = .ok pokemon → res.StatusCode ≤ 299 →
        (commandCatch env config registry draw).1.status =
          (if pokemon.BaseExperience ≤ 0 then Status.panicked else Status.returned none) ∧
        (commandCatch env config registry draw).1.config.Next = config.Next ∧
        (commandCatch env config registry draw).1.config.Cache.Get config.Next
          = (res.Body, true) ∧
        ∀ env2 : Env,
          calls (commandMap env2 (commandCatch env config registry draw).1.config).events
            = [.cacheGet config.Next] ∧
          (commandMap env2 (commandCatch env config registry draw).1.config).status =
            match env2.unmarshalLocations res.Body with
            | .error e => .returned (some e)
            | .ok _ => .returned none) := by
  constructor
  · intro res area hmiss hh hd hs
    rcases hg : config.Cache.Get (config.Next ++ "/" ++ config.Args) with ⟨val, ok⟩
    rw [hg] at hmiss
    simp only at hmiss
    subst hmiss
    rw [commandExplore_miss_ok env config val res area hg hh hd hs]
    refine ⟨rfl, rfl, Cache.Get_Add_self _ _ _ _, fun env2 => ?_⟩
    exact commandMap_hit env2 _ res.Body (Cache.Get_Add_self _ _ _ _)
  · intro res pokemon hmiss hh hd hs
    rcases hg : config.Cache.Get (config.PokemonInfo ++ "/" ++ config.Args) with ⟨val, ok⟩
    rw [hg] at hmiss
    simp only at hmiss
    subst hmiss
    rw [commandCatch_miss_ok env config registry draw val res pokemon hg hh hd hs]
    have hc := throwBall_config { config with Cache := config.Cache.Add env.now config.Next res.Body }
      registry draw pokemon
      [.cacheGet (config.PokemonInfo ++ "/" ++ config.Args),
        .httpGet (config.PokemonInfo ++ "/" ++ config.Args), .cacheAdd config.Next res.Body]
    rw [hc]
    refine ⟨throwBall_status _ _ _ _ _, rfl, Cache.Get_Add_self _ _ _ _, fun env2 => ?_⟩
    exact commandMap_hit env2 _ res.Body (Cache.Get_Add_self _ _ _ _)

/-- Instance of C9: with the `Config` that `repl` builds, `explore
canalave-city-area` and `catch pikachu` (base experience 64) each leave the
fetched body `{}` under the location-area URL. -/
theorem explore_and_catch_fill_the_entry_of_commandMap_witness :
    (commandExplore (sampleEnv 64) (replConfig "canalave-city-area")).config.Cache.Get
        "https://pokeapi.co/api/v2/location-area" = ([123, 125], true) ∧
    (commandCatch (sampleEnv 64) (replConfig "pikachu") GoMap.empty 5).1.config.Cache.Get
        "https://pokeapi.co/api/v2/location-area" = ([123, 125], true) :=
  ⟨((explore_and_catch_fill_the_entry_of_commandMap (sampleEnv 64)
        (replConfig "canalave-city-area") GoMap.empty 5).1 ⟨200, [123, 125]⟩ ⟨0, 0, "", []⟩
        (by decide) rfl rfl (by decide)).2.2.1,
   ((explore_and_catch_fill_the_entry_of_commandMap (sampleEnv 64)
        (replConfig "pikachu") GoMap.empty 5).2 ⟨200, [123, 125]⟩ (samplePokemon 64)
        (by decide) rfl rfl (by decide)).2.2.1⟩

/-- C10: the catch rule.  Once `commandCatch` holds a Pokémon with positive base
experience and the draw `r` lies in `[0, BaseExperience)`, the call returns
`nil`; if `r <= 20` the global registry becomes the old one with the Pokémon
stored under `config.Args`, and if `r > 20` the registry is unchanged.  So a
Pokémon with base experience at most 21 is stored on every draw. -/
theorem catch_rule (env : Env) (config : Config) (registry : GoMap Pokemon) (draw : Int)
    (pokemon : Pokemon) (hfetch : fetchesPokemon env config pokemon)
    (hpos : 0 < pokemon.BaseExperience) (h0 : 0 ≤ draw) (hlt : draw < pokemon.BaseExperience) :
    (commandCatch env config registry draw).1.status = .returned none ∧
    (draw ≤ 20 →
      (commandCatch env config registry draw).2 = registry.set config.Args pokemon ∧
      (commandCatch env config registry draw).2.get? config.Args = some pokemon) ∧
    (20 < draw → (commandCatch env config registry draw).2 = registry) ∧
    (pokemon.BaseExperience ≤ 21 →
      (commandCatch env config registry draw).2 = registry.set config.Args pokemon) := by
  have hb : ¬ pokemon.BaseExperience ≤ 0 := not_le.2 hpos
  have _hrange : 0 ≤ draw ∧ draw < pokemon.BaseExperience := ⟨h0, hlt⟩
  have key : ∃ cfg before, commandCatch env config registry draw
      = throwBall cfg registry draw pokemon before ∧ cfg.Args = config.Args := by
    rcases hfetch with ⟨val, hg, hd⟩ | ⟨val, res, hg, hh, hd, hs⟩
    · exact ⟨_, _, commandCatch_hit_ok env config registry draw val pokemon hg hd, rfl⟩
    · exact ⟨_, _, commandCatch_miss_ok env config registry draw val res pokemon hg hh hd hs,
        rfl⟩
  obtain ⟨cfg, before, heq, hargs⟩ := key
  rw [heq, throwBall_status, throwBall_registry _ _ _ _ _ hpos, hargs]
  refine ⟨by simp [hb], ?_, ?_, ?_⟩
  · intro hd
    rw [if_pos hd]
    exact ⟨rfl, GoMap.get?_set_self _ _ _⟩
  · intro hd
    rw [if_neg (not_le.2 hd)]
  · intro h21
    have hd : draw ≤ 20 := by omega
    rw [if_pos hd]

/-- Instance of C10: `catch pikachu` with base experience 64 fetched from the
network; the draw 5 stores the Pokémon. -/
theorem catch_rule_witness :
    (commandCatch (sampleEnv 64) (replConfig "pikachu") GoMap.empty 5).2.get? "pikachu"
      = some (samplePokemon 64) :=
  ((catch_rule (sampleEnv 64) (replConfig "pikachu") GoMap.empty 5 (samplePokemon 64)
      (Or.inr ⟨[], ⟨200, [123, 125]⟩, by decide, rfl, rfl, by decide⟩)
      (by decide) (by decide) (by decide)).2.1 (by decide)).2

/-! ## The input line -/

/-- C11: for every input line, `cleanInput` returns a list with at least one
element, so the index `args[0]` of the loop in `repl` is in range and the
lookup in `cmdRegistry` takes place.  For an empty line, and for a line made
of spaces or other white space only (which `unicode.ToLower` maps to white
space), the list is `[""]`, and the empty string is not a registered
command. -/
theorem cleanInput_first_element_exists (lower : Char → Char) (text : String) :
    0 < (cleanInput lower text).length ∧
    (∃ found, lookupCommand (cleanInput lower text) = some found) ∧
    cmdRegistry.get? "" = none ∧
    ((∀ c ∈ text.data, unicodeIsSpace c = true) →
      (∀ c, unicodeIsSpace c = true → unicodeIsSpace (lower c) = true) →
      cleanInput lower text = [""] ∧
      lookupCommand (cleanInput lower text) = some none) := by
  have hne : cleanInput lower text ≠ [] := by
    simp only [cleanInput]
    exact stringsSplit_ne_nil _ _ (by decide)
  refine ⟨List.length_pos.2 hne, ?_, by decide, ?_⟩
  · cases hc : cleanInput lower text with
    | nil => exact absurd hc hne
    | cons first rest => exact ⟨cmdRegistry.get? first, rfl⟩
  · intro htext hlower
    rw [cleanInput_of_all_space lower text htext hlower]
    exact ⟨rfl, by decide⟩

/-- Instance of C11: the empty line and the line of three spaces both give
`[""]`, which is looked up and not found. -/
theorem cleanInput_first_element_exists_witness :
    (cleanInput asciiToLower "" = [""] ∧
      lookupCommand (cleanInput asciiToLower "") = some none) ∧
    (cleanInput asciiToLower "   " = [""] ∧
      lookupCommand (cleanInput asciiToLower "   ") = some none) :=
  ⟨(cleanInput_first_element_exists asciiToLower "").2.2.2
      (by simp) asciiToLower_space,
   (cleanInput_first_element_exists asciiToLower "   ").2.2.2
      (by decide) asciiToLower_space⟩

end Gokedex
